import Mathlib

/-
  Verification development for the jaspColumnEncoder column-name encoding engine
  (columnencoder.cpp, columntype.h).  Strings are modelled as `List Char`;
  `std::map` is modelled as an association list with overwrite-on-insert
  semantics (`insertA`) and first-match lookup (`lookupL`); map iteration order
  never influences the functions modelled here (only lookups and the explicit
  vectors do).  Fallible operations (C++ exceptions from `std::map::at` and
  from `encode`/`decode`) are modelled with `Option`/`Except`.
-/

namespace ColumnEncoder

abbrev Str := List Char

/-- Column types, from columntype.h:
`DECLARE_ENUM(columnType, unknown = 0, scale = 1, ordinal = 2, nominal = 3, nominalText = 4)`. -/
inductive ColType where
  | unknown
  | scale
  | ordinal
  | nominal
  | nominalText
deriving DecidableEq

/-- Modelled from the spec: `columnTypeToString` is generated by the
`DECLARE_ENUM` macro in the missing enumutilities.h header and returns the
enumerator's identifier as a string; the spec confirms the three concrete
forms through the qualified names `name.scale`, `name.ordinal`, `name.nominal`. -/
def typeToString : ColType → Str
  | .unknown => "unknown".toList
  | .scale => "scale".toList
  | .ordinal => "ordinal".toList
  | .nominal => "nominal".toList
  | .nominalText => "nominalText".toList

/-- First-match association-list lookup (std::map::find / count / at). -/
def lookupL {κ β : Type} [DecidableEq κ] : List (κ × β) → κ → Option β
  | [], _ => none
  | (k, v) :: t, q => if q = k then some v else lookupL t q

/-- Overwrite-or-append insertion (std::map::operator[] assignment). -/
def insertA {κ β : Type} [DecidableEq κ] : List (κ × β) → κ → β → List (κ × β)
  | [], k, v => [(k, v)]
  | (k0, v0) :: t, k, v => if k = k0 then (k, v) :: t else (k0, v0) :: insertA t k v

/-- Decimal digits of `n` accumulated most-significant first, with explicit
structural fuel so the kernel can evaluate it; `toDecimal` supplies fuel `n`,
which always suffices. -/
def toDecAux : Nat → Nat → List Char
  | 0, _ => []
  | fuel + 1, n => if n = 0 then [] else toDecAux fuel (n / 10) ++ [Nat.digitChar (n % 10)]

/-- Decimal rendering of a natural number (std::to_string). -/
def toDecimal (n : Nat) : List Char := if n = 0 then ['0'] else toDecAux n n

/-- Value of a decimal digit string, used to prove `toDecimal` injective. -/
def decVal (l : List Char) : Nat := l.foldl (fun a c => 10 * a + (c.toNat - 48)) 0

/-- Synthetic identifier generator of setCurrentNames:
`_encodePrefix + std::to_string(runningCounter++) + _encodePostfix`. -/
def genName (pfx sfx : Str) (i : Nat) : Str := pfx ++ toDecimal i ++ sfx

/-- Per-encoder state: the fields of class ColumnEncoder. -/
structure EncState where
  encodingMap : List (Str × Str)
  decodingMap : List (Str × Str)
  decodingTypes : List (Str × ColType)
  originalNames : List Str
  encodedNames : List Str
  dataSetTypes : List (Str × ColType)

/-- A freshly constructed encoder, before any names are registered. -/
def emptyState : EncState := ⟨[], [], [], [], [], []⟩

/-- Type-qualified name: `nameType.first + "." + columnTypeToString(colType)`. -/
def qualified (name : Str) (t : ColType) : Str := name ++ '.' :: typeToString t

/-- The three concrete column types iterated by setCurrentNames. -/
def processKnownTypes : List ColType := [.scale, .ordinal, .nominal]

/-- One iteration of the inner `for(columnType colType : {scale, ordinal, nominal})`
loop of setCurrentNames. -/
def processOneType (pfx sfx : Str) (name : Str) (declType : ColType) :
    EncState × Nat → ColType → EncState × Nat :=
  fun sc ct =>
    let s := sc.1
    let c := sc.2
    let q := qualified name ct
    let e := genName pfx sfx c
    let encBase := insertA s.encodingMap q e
    ({ s with
      originalNames := s.originalNames ++ [q],
      encodingMap := if ct = declType then insertA encBase name e else encBase,
      decodingMap := insertA s.decodingMap e name,
      encodedNames := s.encodedNames ++ [e],
      decodingTypes := insertA s.decodingTypes e ct }, c + 1)

/-- One iteration of the outer `for (const auto & nameType : namesWithTypes)`
loop of setCurrentNames. -/
def processEntry (pfx sfx : Str) : EncState × Nat → Str × ColType → EncState × Nat :=
  fun sc ent =>
    let s := { sc.1 with originalNames := sc.1.originalNames ++ [ent.1] }
    let c := sc.2
    if ent.2 = ColType.unknown then
      let e := genName pfx sfx c
      ({ s with
          encodingMap := insertA s.encodingMap ent.1 e,
          decodingMap := insertA s.decodingMap e ent.1,
          encodedNames := s.encodedNames ++ [e] }, c + 1)
    else
      processKnownTypes.foldl (processOneType pfx sfx ent.1 ent.2) (s, c)

/-- Insertion step of a length-descending sort. -/
def insertByLen (x : Str) : List Str → List Str
  | [] => [x]
  | y :: t => if y.length < x.length then x :: y :: t else y :: insertByLen x t

/-- sortVectorBigToSmall: sort descending by length
(`a.size() > b.size()`; the order among equal-length names is unspecified by
std::sort, realised here as a stable insertion sort). -/
def sortBigToSmall : List Str → List Str
  | [] => []
  | x :: t => insertByLen x (sortBigToSmall t)

/-- ColumnEncoder::setCurrentNames.  The input list stands for the `colTypeMap`
(std::map) in its iteration order.  Faithful to the source: it clears
`_encodingMap`, `_decodingMap` and `_encodedNames`, but neither
`_originalNames` nor `_decodingTypes`; the running counter is local and
restarts at 0; `_originalNames` is sorted descending by length at the end. -/
def setCurrentNames (pfx sfx : Str) (s : EncState) (nm : List (Str × ColType)) : EncState :=
  let s0 : EncState :=
    { s with encodingMap := [], decodingMap := [], encodedNames := [], dataSetTypes := nm }
  let s1 := (nm.foldl (processEntry pfx sfx) (s0, 0)).1
  { s1 with originalNames := sortBigToSmall s1.originalNames }

/-- Merge step of the aggregate views: entries of `m` are added to `base`
only when their key is absent (`if(map.count(keyVal.first) == 0)`), walking
the entries of `m` in order. -/
def mergeInto {κ β : Type} [DecidableEq κ] : List (κ × β) → List (κ × β) → List (κ × β)
  | base, [] => base
  | base, kv :: t =>
    mergeInto (if (lookupL base kv.1).isSome then base else base ++ [kv]) t

/-- Aggregate map: start from the primary encoder's map, then fill in keys
absent so far from the other encoders.  (In the source `_otherEncoders` also
contains the primary encoder itself; re-merging it is a no-op, so it is
omitted from `others` here.) -/
def mergedMaps {κ β : Type} [DecidableEq κ]
    (primary : List (κ × β)) (others : List (List (κ × β))) : List (κ × β) :=
  others.foldl mergeInto primary

/-- The process-wide registry: the primary encoder plus the auxiliary encoders. -/
structure Registry where
  primary : EncState
  others : List EncState

/-- ColumnEncoder::encodingMap (the merged aggregate view). -/
def regEncodingMap (r : Registry) : List (Str × Str) :=
  mergedMaps r.primary.encodingMap (r.others.map (·.encodingMap))

/-- ColumnEncoder::decodingMap (the merged aggregate view). -/
def regDecodingMap (r : Registry) : List (Str × Str) :=
  mergedMaps r.primary.decodingMap (r.others.map (·.decodingMap))

/-- ColumnEncoder::decodingTypes (the merged aggregate view). -/
def regDecodingTypes (r : Registry) : List (Str × ColType) :=
  mergedMaps r.primary.decodingTypes (r.others.map (·.decodingTypes))

/-- ColumnEncoder::originalNames: primary's list, then the others' lists,
sorted descending by length on every access. -/
def regOriginalNames (r : Registry) : List Str :=
  sortBigToSmall (r.primary.originalNames ++ (r.others.map (·.originalNames)).flatten)

/-- Message of the exception thrown by ColumnEncoder::encode. -/
def encodeErrMsg (s : Str) : Str :=
  "Trying to encode columnName but '".toList ++ s ++ "' is not a columnName!".toList

/-- Message of the exception thrown by ColumnEncoder::decode. -/
def decodeErrMsg (s : Str) : Str :=
  "Trying to decode columnName but '".toList ++ s ++ "' is not an encoded columnName!".toList

/-- ColumnEncoder::encode: empty input passes through; otherwise the merged
encoding map decides success or the NotAColumnName error. -/
def encode (r : Registry) (s : Str) : Except Str Str :=
  if s = [] then .ok []
  else
    match lookupL (regEncodingMap r) s with
    | none => .error (encodeErrMsg s)
    | some v => .ok v

/-- ColumnEncoder::decode: empty input passes through; otherwise the merged
decoding map decides success or the NotAnEncodedName error. -/
def decode (r : Registry) (s : Str) : Except Str Str :=
  if s = [] then .ok []
  else
    match lookupL (regDecodingMap r) s with
    | none => .error (decodeErrMsg s)
    | some v => .ok v

/-- ColumnEncoder::columnTypeFromEncoded: unknown for empty or unrecognised
input, otherwise the merged declared-type map entry. -/
def columnTypeFromEncoded (r : Registry) (s : Str) : ColType :=
  if s = [] then .unknown
  else
    match lookupL (regDecodingTypes r) s with
    | none => .unknown
    | some t => t

/-- Bool-valued prefix test on lists (`text.substr(pos, n) == needle` clamps,
so equality holds exactly when the needle is a full prefix of the suffix). -/
def isPfx : Str → Str → Bool
  | [], _ => true
  | _ :: _, [] => false
  | a :: as, b :: bs => a = b && isPfx as bs

/-- Quote-delimiter toggle of getPositionsColumnNameMatches: a quote opens a
run when none is open; only the same delimiter closes it; no escapes. -/
def quoteStep : Bool × Char → Char → Bool × Char :=
  fun st c =>
    if c = '"' ∨ c = '\'' then
      if st.1 = false then (true, c)
      else if c = st.2 then (false, st.2) else st
    else st

/-- Scan loop of ColumnEncoder::getPositionsColumnNameMatches.  Faithful to
the source's `if (!inString && match) ... else if (quote) ...`: when a match
is recorded the quote branch is skipped, so a quote character at a recorded
match position does not toggle the string state. -/
def getPosAux (name : Str) : Str → Nat → Bool × Char → List Nat
  | [], _, _ => []
  | c :: rest, pos, st =>
    if st.1 = false ∧ isPfx name (c :: rest) then
      pos :: getPosAux name rest (pos + 1) st
    else
      getPosAux name rest (pos + 1) (quoteStep st c)

/-- ColumnEncoder::getPositionsColumnNameMatches. -/
def getPositionsColumnNameMatches (text name : Str) : List Nat :=
  getPosAux name text 0 (false, '?')

/-- Scan loop written from the spec's words for the occurrence scanner: all
literal-substring start offsets, excluding those inside a single- or
double-quoted run, where the quoted runs are tracked by the simple delimiter
toggle independently of the matching (every character feeds the toggle). -/
def specPosAux (name : Str) : Str → Nat → Bool × Char → List Nat
  | [], _, _ => []
  | c :: rest, pos, st =>
    if st.1 = false ∧ isPfx name (c :: rest) then
      pos :: specPosAux name rest (pos + 1) (quoteStep st c)
    else
      specPosAux name rest (pos + 1) (quoteStep st c)

/-- Spec-side occurrence scanner (see `specPosAux`). -/
def specOccurrences (text name : Str) : List Nat := specPosAux name text 0 (false, '?')

/-- The character class `[^\.A-Za-z0-9_]` (regex `nonNameChar` of encodeRScript). -/
def nonNameChar (c : Char) : Bool :=
  !(c = '.' ∨ c = '_' ∨ ('A' ≤ c ∧ c ≤ 'Z') ∨ ('a' ≤ c ∧ c ≤ 'z') ∨ ('0' ≤ c ∧ c ≤ '9'))

/-- Character of `text` at index `i`, if any. -/
def charAt (text : Str) (i : Nat) : Option Char := (text.drop i).head?

/-- Lambda `testNonNameChar` of encodeRScript: position 0 is free, otherwise
the preceding character must be outside the identifier class.  (`substr` of an
out-of-range position cannot produce a matching one-character string, hence
`false` beyond the end.) -/
def testNonNameChar (text : Str) (pos : Nat) : Bool :=
  pos = 0 ||
    (match charAt text (pos - 1) with
     | some c => nonNameChar c
     | none => false)

/-- Equality of `text.substr(start, seg.length())` with `seg`. -/
def segEq (text : Str) (start : Nat) (seg : Str) : Bool := isPfx seg (text.drop start)

/-- Lambda `testFreePrefix` of encodeRScript: with an empty mandatory prefix
it returns false; otherwise the exact prefix must end at `pos` and the
position before the prefix must itself be free (out-of-range `substr`
underflow throws and is caught, yielding false). -/
def testFreePfx (text mpfx : Str) (pos : Nat) : Bool :=
  if mpfx = [] then false
  else if mpfx.length ≤ pos ∧ segEq text (pos - mpfx.length) mpfx then
    testNonNameChar text (pos - mpfx.length)
  else false

/-- First character that is not a space or tab. -/
def firstNonWs : Str → Option Char
  | [] => none
  | c :: rest => if c = ' ' ∨ c = '\t' then firstNonWs rest else some c

/-- The brace-scanning loop of `testEndFree`: starting at the character right
after the match, `(` makes the end not free, any other non-space-non-tab
character stops the scan leaving it free, and running off the end leaves it
free. -/
def endScan : Str → Bool
  | [] => true
  | c :: rest =>
    if c = '(' then false
    else if c ≠ ' ' ∧ c ≠ '\t' then true
    else endScan rest

/-- Lambda `testEndFree` of encodeRScript. -/
def testEndFree (text : Str) (pos : Nat) : Bool :=
  if pos = text.length then true
  else
    match charAt text pos with
    | none => false
    | some c => nonNameChar c && endScan (text.drop pos)

/-- `text.replace(pos, len, repl)` on lists. -/
def replaceSeg (text : Str) (pos len : Nat) (repl : Str) : Str :=
  text.take pos ++ repl ++ text.drop (pos + len)

/-- `std::set<std::string>::insert` modelled on a duplicate-free list. -/
def insertIfAbsent (l : List Str) (x : Str) : List Str := if x ∈ l then l else l ++ [x]

/-- Body of the `for (size_t foundPos : foundColPositions)` loop of
ColumnEncoder::encodeRScript: prefix gate, then the start/end freedom tests
on the current (partially replaced) text, then the in-place replacement. -/
def processPosition (mpfx oldCol newCol : Str) (st : Str × List Str) (pos : Nat) :
    Str × List Str :=
  let hasFreePfx := testFreePfx st.1 mpfx pos
  if mpfx ≠ [] ∧ hasFreePfx = false then st
  else
    let startFree := hasFreePfx || testNonNameChar st.1 pos
    let endFree := testEndFree st.1 (pos + oldCol.length)
    if startFree && endFree then
      (replaceSeg st.1 pos oldCol.length newCol, insertIfAbsent st.2 oldCol)
    else st

/-- Body of the `for(const std::string & oldCol : names)` loop of
ColumnEncoder::encodeRScript: `map.at(oldCol)` (None models the exception),
the positions of `oldCol` in the current text, reversed, then the per-position
processing. -/
def processName (map : List (Str × Str)) (mpfx : Str)
    (st : Option (Str × List Str)) (oldCol : Str) : Option (Str × List Str) :=
  st.bind fun ts =>
    (lookupL map oldCol).map fun newCol =>
      ((getPositionsColumnNameMatches ts.1 oldCol).reverse).foldl
        (processPosition mpfx oldCol newCol) ts

/-- ColumnEncoder::encodeRScript (text, map, names, columnNamesFound,
mandatoryPrefix): the set of found names starts empty and the names are
processed in list order. -/
def encodeRScript (text : Str) (map : List (Str × Str)) (names : List Str) (mpfx : Str) :
    Option (Str × List Str) :=
  names.foldl (processName map mpfx) (some (text, []))

/-- Per-name pass as worded by the corrected spec sentence: for one name, its
unquoted occurrence positions are computed once and its free occurrences are
replaced right-to-left (the right-to-left order realised by a right fold over
the ascending position list). -/
def processNameSpec (map : List (Str × Str)) (mpfx : Str)
    (st : Option (Str × List Str)) (oldCol : Str) : Option (Str × List Str) :=
  st.bind fun ts =>
    (lookupL map oldCol).map fun newCol =>
      (getPositionsColumnNameMatches ts.1 oldCol).foldr
        (fun pos acc => processPosition mpfx oldCol newCol acc pos) ts

/-- Whole-text encoder as worded by the corrected spec sentence: one
right-to-left pass per registered name, names taken in list order
(longest-first when the list is the sorted originalNames). -/
def encodeRScriptPerName (text : Str) (map : List (Str × Str)) (names : List Str)
    (mpfx : Str) : Option (Str × List Str) :=
  names.foldl (processNameSpec map mpfx) (some (text, []))

/-- Positions of `name` in `text` that the boundary-and-quote heuristics
accept for replacement (used by the spec-side cursor-resuming algorithm). -/
def freePositions (text name mpfx : Str) : List Nat :=
  (getPositionsColumnNameMatches text name).filter fun p =>
    let hasFreePfx := testFreePfx text mpfx p
    (mpfx.isEmpty || hasFreePfx) && (hasFreePfx || testNonNameChar text p) &&
      testEndFree text (p + name.length)

/-- Earliest free occurrence of `name` at or after the cursor. -/
def firstFreeFrom (text name mpfx : Str) (cursor : Nat) : Option Nat :=
  (freePositions text name mpfx).find? (fun p => decide (cursor ≤ p))

/-- Earliest free occurrence among all names (ties broken by list order,
i.e. longest-first for a length-sorted list), as §4.3 of the spec words it. -/
def findBestFree (names : List Str) (text mpfx : Str) (cursor : Nat) : Option (Str × Nat) :=
  names.foldl (fun acc n =>
    match firstFreeFrom text n mpfx cursor with
    | none => acc
    | some p =>
      match acc with
      | none => some (n, p)
      | some best => if p < best.2 then some (n, p) else acc) none

/-- The cursor-resuming replaceAll algorithm of spec §4.3 restricted to free,
unquoted occurrences (the algorithm the claim says encodeRScript implements):
replace the earliest candidate, resume just past the inserted replacement,
repeat.  Fuel-indexed; `none` means the fuel ran out. -/
def resumeReplaceFree (map : List (Str × Str)) (names : List Str) (mpfx : Str) :
    Nat → Str → Nat → Option Str
  | 0, _, _ => none
  | fuel + 1, text, cursor =>
    match findBestFree names text mpfx cursor with
    | none => some text
    | some np =>
      (lookupL map np.1).bind fun r =>
        resumeReplaceFree map names mpfx fuel (replaceSeg text np.2 np.1.length r)
          (np.2 + r.length)

/-- Insertion step of a length-ascending sort. -/
def insertBySizeAsc (x : Str) : List Str → List Str
  | [] => [x]
  | y :: t => if x.length < y.length then x :: y :: t else y :: insertBySizeAsc x t

/-- Sort ascending by length (`l.size() < r.size()`), stable insertion sort. -/
def sortSmallToBig : List Str → List Str
  | [] => []
  | x :: t => insertBySizeAsc x (sortSmallToBig t)

/-- ColumnEncoder::encodeRScript (prefix-set overload): the allowed prefixes
are sorted ascending by size, the empty prefix is put first, and
encodeRScript runs once per prefix, accumulating the per-prefix found sets. -/
def encodeRScriptWithPfxs (text : Str) (map : List (Str × Str)) (names : List Str)
    (pfxs : List Str) : Option (Str × List (Str × List Str)) :=
  (([] : Str) :: sortSmallToBig pfxs).foldl
    (fun acc p => acc.bind fun tb =>
      (encodeRScript tb.1 map names p).map fun tf => (tf.1, tb.2 ++ [(p, tf.2)]))
    (some (text, []))

/-- Result of ColumnEncoder::replaceAll: a rewritten text, the
std::out_of_range thrown by `map.at`, or exhausted fuel. -/
inductive RepRes where
  | ok (t : Str)
  | keyError
  | fuelOut
deriving DecidableEq

/-- `text.find(needle, pos)` scan, walking the suffix. -/
def findFromAux (needle : Str) : Str → Nat → Option Nat
  | [], pos => if isPfx needle [] then some pos else none
  | c :: t, pos => if isPfx needle (c :: t) then some pos else findFromAux needle t (pos + 1)

/-- `std::string::find(needle, start)`: npos (none) when `start` exceeds the
length, otherwise the first match offset at or after `start`. -/
def findFrom (text needle : Str) (start : Nat) : Option Nat :=
  if text.length < start then none else findFromAux needle (text.drop start) start

/-- The candidate search of ColumnEncoder::replaceAll: the earliest next
occurrence among all names, first name in list order winning ties (`pos <
firstFoundPos` is strict). -/
def findBest (names : List Str) (text : Str) (cursor : Nat) : Option (Str × Nat) :=
  names.foldl (fun acc n =>
    match findFrom text n cursor with
    | none => acc
    | some p =>
      match acc with
      | none => some (n, p)
      | some best => if p < best.2 then some (n, p) else acc) none

/-- The `while(foundPos < npos)` loop of ColumnEncoder::replaceAll, with
explicit fuel standing for the number of remaining iterations. -/
def replaceAllFuel (map : List (Str × Str)) (names : List Str) :
    Nat → Str → Nat → RepRes
  | 0, _, _ => .fuelOut
  | fuel + 1, text, cursor =>
    match findBest names text cursor with
    | none => .ok text
    | some np =>
      match lookupL map np.1 with
      | none => .keyError
      | some r =>
        replaceAllFuel map names fuel (replaceSeg text np.2 np.1.length r) (np.2 + r.length)

/-- ColumnEncoder::replaceAll(text, map, names), run with fuel
`text.length + 1`, which the termination theorem shows is always enough when
every name is non-empty. -/
def replaceAll (map : List (Str × Str)) (names : List Str) (text : Str) : RepRes :=
  replaceAllFuel map names (text.length + 1) text 0

/-- Affixes of the replacer encoder, from the source:
`ColumnEncoder("JASPColumn_", "_For_Replacement")` in the decodeDifferently
constructor; used as concrete affixes in the closed evaluations below. -/
def pfxJ : Str := "JASPColumn_".toList

/-- See `pfxJ`. -/
def sfxJ : Str := "_For_Replacement".toList

/-- Small concrete registry (one primary encoder mapping a to X) used to
evaluate the encode/decode contract on a concrete input. -/
def sampleRegistry : Registry :=
  ⟨⟨[("a".toList, "X".toList)], [("X".toList, "a".toList)], [], [], [], []⟩, []⟩

/-- Concrete primary encoder state (a maps to X) for the aggregation scenario. -/
def samplePrimary : EncState := ⟨[("a".toList, "X".toList)], [], [], [], [], []⟩

/-- Concrete auxiliary encoder state (a maps to Z, b maps to Y) for the
aggregation scenario. -/
def sampleAux : EncState :=
  ⟨[("a".toList, "Z".toList), ("b".toList, "Y".toList)], [], [], [], [], []⟩


theorem lookupL_insertA_self {κ β : Type} [DecidableEq κ] (l : List (κ × β)) (k : κ) (v : β) :
    lookupL (insertA l k v) k = some v := by
  induction l with
  | nil => simp [insertA, lookupL]
  | cons kv t ih =>
    obtain ⟨k0, v0⟩ := kv
    by_cases h : k = k0
    · simp [insertA, lookupL, h]
    · simp [insertA, lookupL, h, ih]

theorem lookupL_insertA_ne {κ β : Type} [DecidableEq κ] {l : List (κ × β)} {k q : κ}
    (h : q ≠ k) (v : β) : lookupL (insertA l k v) q = lookupL l q := by
  induction l with
  | nil => simp [insertA, lookupL, h]
  | cons kv t ih =>
    obtain ⟨k0, v0⟩ := kv
    by_cases h0 : k = k0
    · subst h0
      simp [insertA, lookupL, h]
    · by_cases hq : q = k0
      · simp [insertA, lookupL, h0, hq]
      · simp [insertA, lookupL, h0, hq, ih]

theorem lookupL_append {κ β : Type} [DecidableEq κ] (l₁ l₂ : List (κ × β)) (k : κ) :
    lookupL (l₁ ++ l₂) k =
      match lookupL l₁ k with
      | some v => some v
      | none => lookupL l₂ k := by
  induction l₁ with
  | nil => simp [lookupL]
  | cons kv t ih =>
    obtain ⟨k0, v0⟩ := kv
    by_cases h : k = k0
    · simp [lookupL, h]
    · simp [lookupL, h, ih]

theorem mergeInto_lookup {κ β : Type} [DecidableEq κ] (base m : List (κ × β)) (k : κ) :
    lookupL (mergeInto base m) k =
      match lookupL base k with
      | some v => some v
      | none => lookupL m k := by
  induction m generalizing base with
  | nil =>
    simp [mergeInto, lookupL]
    cases lookupL base k <;> rfl
  | cons kv t ih =>
    obtain ⟨k0, v0⟩ := kv
    by_cases h0 : (lookupL base k0).isSome
    · rw [show mergeInto base ((k0, v0) :: t) = mergeInto base t by simp [mergeInto, h0], ih]
      by_cases hk : k = k0
      · subst hk
        obtain ⟨v, hv⟩ := Option.isSome_iff_exists.mp h0
        simp [hv, lookupL]
      · simp [lookupL, hk]
    · rw [show mergeInto base ((k0, v0) :: t) = mergeInto (base ++ [(k0, v0)]) t by
          simp [mergeInto, h0], ih, lookupL_append]
      by_cases hk : k = k0
      · subst hk
        have hb : lookupL base k = none := Option.not_isSome_iff_eq_none.mp h0
        simp [hb, lookupL]
      · cases hbk : lookupL base k <;> simp [lookupL, hk]

theorem processName_eq_spec (map : List (Str × Str)) (mpfx : Str)
    (st : Option (Str × List Str)) (oldCol : Str) :
    processName map mpfx st oldCol = processNameSpec map mpfx st oldCol := by
  unfold processName processNameSpec
  cases st with
  | none => rfl
  | some ts =>
    cases h2 : lookupL map oldCol with
    | none => rfl
    | some newCol =>
      simp [h2, List.foldl_reverse]

theorem endScan_iff (l : Str) : endScan l = true ↔ firstNonWs l ≠ some '(' := by
  induction l with
  | nil => simp [endScan, firstNonWs]
  | cons c rest ih =>
    by_cases h1 : c = '('
    · subst h1
      simp [endScan, firstNonWs]
    · by_cases h2 : c = ' ' ∨ c = '\t'
      · have hc : ¬(c ≠ ' ' ∧ c ≠ '\t') := by tauto
        simp only [endScan, firstNonWs, if_neg h1, if_neg hc, if_pos h2]
        exact ih
      · have hc : c ≠ ' ' ∧ c ≠ '\t' := by tauto
        simp [endScan, firstNonWs, h1, h2, hc]

theorem getPosAux_eq_spec (name : Str) (h1 : name ≠ []) (h2 : name.head? ≠ some '"')
    (h3 : name.head? ≠ some '\'') :
    ∀ (text : Str) (pos : Nat) (st : Bool × Char),
      getPosAux name text pos st = specPosAux name text pos st := by
  intro text
  induction text with
  | nil => intro pos st; rfl
  | cons c rest ih =>
    intro pos st
    unfold getPosAux specPosAux
    by_cases h : st.1 = false ∧ isPfx name (c :: rest) = true
    · rw [if_pos h, if_pos h]
      have hq : quoteStep st c = st := by
        obtain ⟨a, as, rfl⟩ : ∃ a as, name = a :: as := by
          cases name with
          | nil => exact absurd rfl h1
          | cons a as => exact ⟨a, as, rfl⟩
        have hac : a = c := by
          have hpf := h.2
          simp [isPfx] at hpf
          exact hpf.1
        subst hac
        simp only [List.head?_cons, ne_eq, Option.some.injEq] at h2 h3
        simp only [quoteStep]
        rw [if_neg]
        intro hor
        rcases hor with h4 | h4
        · exact h2 h4
        · exact h3 h4
      rw [hq, ih]
    · rw [if_neg h, if_neg h, ih]

theorem isMem_length_le {n l : Str} (h : isPfx n l = true) : n.length ≤ l.length := by
  induction n generalizing l with
  | nil => simp
  | cons a as ih =>
    cases l with
    | nil => simp [isPfx] at h
    | cons b bs =>
      simp only [isPfx, Bool.and_eq_true] at h
      have := ih h.2
      simp only [List.length_cons]
      omega

theorem findFromAux_bounds {needle rem : Str} {pos p : Nat}
    (h : findFromAux needle rem pos = some p) :
    pos ≤ p ∧ p - pos + needle.length ≤ rem.length := by
  induction rem generalizing pos with
  | nil =>
    unfold findFromAux at h
    by_cases hp : isPfx needle [] = true
    · rw [if_pos hp] at h
      cases h
      have hlen := isMem_length_le hp
      simp only [List.length_nil] at hlen ⊢
      omega
    · rw [if_neg hp] at h
      cases h
  | cons c t ih =>
    unfold findFromAux at h
    by_cases hp : isPfx needle (c :: t) = true
    · rw [if_pos hp] at h
      cases h
      have := isMem_length_le hp
      simp only [List.length_cons] at this ⊢
      omega
    · rw [if_neg hp] at h
      obtain ⟨ha, hb⟩ := ih h
      simp only [List.length_cons]
      omega

theorem findFrom_bounds {text n : Str} {start p : Nat} (h : findFrom text n start = some p) :
    start ≤ p ∧ p + n.length ≤ text.length := by
  unfold findFrom at h
  by_cases hl : text.length < start
  · rw [if_pos hl] at h
    cases h
  · rw [if_neg hl] at h
    obtain ⟨h1, h2⟩ := findFromAux_bounds h
    have hd : (text.drop start).length = text.length - start := List.length_drop start text
    omega

theorem findBest_mem (text : Str) (cursor : Nat) :
    ∀ (names : List Str) (acc : Option (Str × Nat)) (n : Str) (p : Nat),
      names.foldl (fun acc n =>
        match findFrom text n cursor with
        | none => acc
        | some p =>
          match acc with
          | none => some (n, p)
          | some best => if p < best.2 then some (n, p) else acc) acc = some (n, p) →
      acc = some (n, p) ∨ (n ∈ names ∧ findFrom text n cursor = some p) := by
  intro names
  induction names with
  | nil =>
    intro acc n p h
    exact Or.inl h
  | cons m t ih =>
    intro acc n p h
    rw [List.foldl_cons] at h
    rcases ih _ n p h with h1 | h1
    · cases hf : findFrom text m cursor with
      | none =>
        rw [hf] at h1
        exact Or.inl h1
      | some q =>
        rw [hf] at h1
        cases acc with
        | none =>
          cases h1
          exact Or.inr ⟨List.mem_cons_self m t, hf⟩
        | some best =>
          have h2 : (if q < best.2 then some (m, q) else some best) = some (n, p) := h1
          by_cases hq : q < best.2
          · rw [if_pos hq] at h2
            cases h2
            exact Or.inr ⟨List.mem_cons_self m t, hf⟩
          · rw [if_neg hq] at h2
            exact Or.inl h2
    · exact Or.inr ⟨List.mem_cons_of_mem m h1.1, h1.2⟩

theorem replaceSeg_length (text : Str) (pos len : Nat) (repl : Str) (h : pos ≤ text.length) :
    (replaceSeg text pos len repl).length =
      pos + repl.length + (text.length - (pos + len)) := by
  simp [replaceSeg, List.length_take, List.length_drop]
  omega

theorem replaceAllFuel_ok (map : List (Str × Str)) (names : List Str)
    (h : ∀ n ∈ names, n ≠ [] ∧ (lookupL map n).isSome) :
    ∀ (fuel : Nat) (text : Str) (cursor : Nat), text.length - cursor < fuel →
      ∃ res, replaceAllFuel map names fuel text cursor = .ok res := by
  intro fuel
  induction fuel with
  | zero =>
    intro text cursor h0
    omega
  | succ f ih =>
    intro text cursor hf
    unfold replaceAllFuel
    cases hb : findBest names text cursor with
    | none => exact ⟨text, rfl⟩
    | some np =>
      obtain ⟨n, p⟩ := np
      have hmem : n ∈ names ∧ findFrom text n cursor = some p := by
        unfold findBest at hb
        rcases findBest_mem text cursor names none n p hb with h1 | h1
        · cases h1
        · exact h1
      obtain ⟨hne, hlk⟩ := h n hmem.1
      obtain ⟨v, hv⟩ := Option.isSome_iff_exists.mp hlk
      change ∃ res,
        (match lookupL map n with
          | none => RepRes.keyError
          | some r =>
            replaceAllFuel map names f (replaceSeg text p n.length r) (p + r.length)) =
          RepRes.ok res
      rw [hv]
      obtain ⟨hc, hplen⟩ := findFrom_bounds hmem.2
      have hn1 : 1 ≤ n.length := by
        cases n with
        | nil => exact absurd rfl hne
        | cons a t => simp
      apply ih
      rw [replaceSeg_length text p n.length v (by omega)]
      omega

theorem dot_not_mem_typeToString (t : ColType) : '.' ∉ typeToString t := by
  cases t <;> decide

theorem typeToString_inj {t1 t2 : ColType} (h : typeToString t1 = typeToString t2) : t1 = t2 := by
  cases t1 <;> cases t2 <;> first
    | rfl
    | exact absurd h (by decide)

theorem append_dot_inj {a b s1 s2 : Str} (hs1 : '.' ∉ s1) (hs2 : '.' ∉ s2)
    (h : a ++ '.' :: s1 = b ++ '.' :: s2) : a = b ∧ s1 = s2 := by
  induction a generalizing b with
  | nil =>
    cases b with
    | nil =>
      simp only [List.nil_append, List.cons.injEq] at h
      exact ⟨rfl, h.2⟩
    | cons d bs =>
      simp only [List.nil_append, List.cons_append, List.cons.injEq] at h
      exfalso
      apply hs1
      rw [h.2]
      exact List.mem_append_right _ (List.mem_cons_self _ _)
  | cons c as ih =>
    cases b with
    | nil =>
      simp only [List.nil_append, List.cons_append, List.cons.injEq] at h
      exfalso
      apply hs2
      rw [← h.2]
      exact List.mem_append_right _ (List.mem_cons_self _ _)
    | cons d bs =>
      simp only [List.cons_append, List.cons.injEq] at h
      obtain ⟨h1, h2⟩ := h
      obtain ⟨hab, hs⟩ := ih h2
      exact ⟨by rw [h1, hab], hs⟩

theorem qualified_inj {a b : Str} {t1 t2 : ColType} (h : qualified a t1 = qualified b t2) :
    a = b ∧ t1 = t2 := by
  unfold qualified at h
  obtain ⟨hab, hts⟩ :=
    append_dot_inj (dot_not_mem_typeToString t1) (dot_not_mem_typeToString t2) h
  exact ⟨hab, typeToString_inj hts⟩

theorem qualified_ne_self (n : Str) (t : ColType) : qualified n t ≠ n := by
  intro h
  have h2 := congrArg List.length h
  simp only [qualified, List.length_append, List.length_cons] at h2
  omega

theorem qualified_ne_nil (n : Str) (t : ColType) : qualified n t ≠ [] := by
  unfold qualified
  simp

theorem digitChar_toNat_of_lt {d : Nat} (h : d < 10) : (Nat.digitChar d).toNat = 48 + d := by
  interval_cases d <;> rfl

theorem decVal_append_digit (l : List Char) (c : Char) :
    decVal (l ++ [c]) = 10 * decVal l + (c.toNat - 48) := by
  simp [decVal, List.foldl_append]

theorem decVal_toDecAux : ∀ (fuel n : Nat), n ≤ fuel → decVal (toDecAux fuel n) = n := by
  intro fuel
  induction fuel with
  | zero =>
    intro n h
    have h0 : n = 0 := by omega
    subst h0
    rfl
  | succ f ih =>
    intro n h
    by_cases hn : n = 0
    · subst hn
      rfl
    · unfold toDecAux
      rw [if_neg hn, decVal_append_digit, ih (n / 10) (by omega),
        digitChar_toNat_of_lt (Nat.mod_lt n (by omega))]
      omega

theorem decVal_toDecimal (n : Nat) : decVal (toDecimal n) = n := by
  unfold toDecimal
  by_cases h : n = 0
  · subst h
    rfl
  · rw [if_neg h]
    exact decVal_toDecAux n n le_rfl

theorem toDecimal_inj {i j : Nat} (h : toDecimal i = toDecimal j) : i = j := by
  have h2 := congrArg decVal h
  rwa [decVal_toDecimal, decVal_toDecimal] at h2

theorem genName_inj {pfx sfx : Str} {i j : Nat} (h : genName pfx sfx i = genName pfx sfx j) :
    i = j := by
  unfold genName at h
  exact toDecimal_inj (List.append_cancel_left (List.append_cancel_right h))

theorem toDecimal_ne_nil (n : Nat) : toDecimal n ≠ [] := by
  unfold toDecimal
  by_cases h : n = 0
  · simp [h]
  · rw [if_neg h]
    cases n with
    | zero => exact absurd rfl h
    | succ m =>
      unfold toDecAux
      rw [if_neg h]
      simp

theorem genName_ne_nil (pfx sfx : Str) (i : Nat) : genName pfx sfx i ≠ [] := by
  intro h
  have hl := congrArg List.length h
  simp only [genName, List.length_append, List.length_nil] at hl
  exact toDecimal_ne_nil i (List.length_eq_zero.mp (by omega))

theorem processOneType_enc_preserved (pfx sfx name : Str) (declType : ColType)
    (sc : EncState × Nat) (ct : ColType) {q v : Str}
    (hb : name ≠ q) (hq : qualified name ct ≠ q)
    (h : lookupL sc.1.encodingMap q = some v) :
    lookupL (processOneType pfx sfx name declType sc ct).1.encodingMap q = some v := by
  show lookupL (if ct = declType
      then insertA (insertA sc.1.encodingMap (qualified name ct) (genName pfx sfx sc.2))
        name (genName pfx sfx sc.2)
      else insertA sc.1.encodingMap (qualified name ct) (genName pfx sfx sc.2)) q = some v
  by_cases hct : ct = declType
  · rw [if_pos hct, lookupL_insertA_ne (Ne.symm hb), lookupL_insertA_ne (Ne.symm hq)]
    exact h
  · rw [if_neg hct, lookupL_insertA_ne (Ne.symm hq)]
    exact h

theorem processOneType_dec_preserved (pfx sfx name : Str) (declType : ColType)
    (sc : EncState × Nat) (ct : ColType) {e v : Str}
    (he : genName pfx sfx sc.2 ≠ e)
    (h : lookupL sc.1.decodingMap e = some v) :
    lookupL (processOneType pfx sfx name declType sc ct).1.decodingMap e = some v := by
  show lookupL (insertA sc.1.decodingMap (genName pfx sfx sc.2) name) e = some v
  rw [lookupL_insertA_ne (Ne.symm he)]
  exact h

theorem processOneType_dt_preserved (pfx sfx name : Str) (declType : ColType)
    (sc : EncState × Nat) (ct : ColType) {e : Str} {t0 : ColType}
    (he : genName pfx sfx sc.2 ≠ e)
    (h : lookupL sc.1.decodingTypes e = some t0) :
    lookupL (processOneType pfx sfx name declType sc ct).1.decodingTypes e = some t0 := by
  show lookupL (insertA sc.1.decodingTypes (genName pfx sfx sc.2) ct) e = some t0
  rw [lookupL_insertA_ne (Ne.symm he)]
  exact h

theorem processEntry_counter_le (pfx sfx : Str) (sc : EncState × Nat) (ent : Str × ColType) :
    sc.2 ≤ (processEntry pfx sfx sc ent).2 := by
  unfold processEntry
  by_cases hu : ent.2 = ColType.unknown
  · rw [if_pos hu]
    show sc.2 ≤ sc.2 + 1
    omega
  · rw [if_neg hu]
    show sc.2 ≤ sc.2 + 1 + 1 + 1
    omega

theorem processEntry_enc_preserved (pfx sfx : Str) (sc : EncState × Nat) (m : Str)
    (tm : ColType) {q v : Str}
    (hb : m ≠ q) (hq : ∀ ct : ColType, qualified m ct ≠ q)
    (h : lookupL sc.1.encodingMap q = some v) :
    lookupL (processEntry pfx sfx sc (m, tm)).1.encodingMap q = some v := by
  unfold processEntry
  by_cases hu : (m, tm).2 = ColType.unknown
  · rw [if_pos hu]
    show lookupL (insertA sc.1.encodingMap m (genName pfx sfx sc.2)) q = some v
    rw [lookupL_insertA_ne (Ne.symm hb)]
    exact h
  · rw [if_neg hu]
    exact processOneType_enc_preserved pfx sfx m tm _ ColType.nominal hb (hq _)
      (processOneType_enc_preserved pfx sfx m tm _ ColType.ordinal hb (hq _)
        (processOneType_enc_preserved pfx sfx m tm _ ColType.scale hb (hq _) h))

theorem processEntry_dec_preserved (pfx sfx : Str) (sc : EncState × Nat) (m : Str)
    (tm : ColType) {e v : Str}
    (he : ∀ j, sc.2 ≤ j → genName pfx sfx j ≠ e)
    (h : lookupL sc.1.decodingMap e = some v) :
    lookupL (processEntry pfx sfx sc (m, tm)).1.decodingMap e = some v := by
  unfold processEntry
  by_cases hu : (m, tm).2 = ColType.unknown
  · rw [if_pos hu]
    show lookupL (insertA sc.1.decodingMap (genName pfx sfx sc.2) m) e = some v
    rw [lookupL_insertA_ne (Ne.symm (he sc.2 le_rfl))]
    exact h
  · rw [if_neg hu]
    exact processOneType_dec_preserved pfx sfx m tm _ ColType.nominal
        (he (sc.2 + 1 + 1) (by omega))
      (processOneType_dec_preserved pfx sfx m tm _ ColType.ordinal
          (he (sc.2 + 1) (by omega))
        (processOneType_dec_preserved pfx sfx m tm _ ColType.scale (he sc.2 le_rfl) h))

theorem processEntry_dt_preserved (pfx sfx : Str) (sc : EncState × Nat) (m : Str)
    (tm : ColType) {e : Str} {t0 : ColType}
    (he : ∀ j, sc.2 ≤ j → genName pfx sfx j ≠ e)
    (h : lookupL sc.1.decodingTypes e = some t0) :
    lookupL (processEntry pfx sfx sc (m, tm)).1.decodingTypes e = some t0 := by
  unfold processEntry
  by_cases hu : (m, tm).2 = ColType.unknown
  · rw [if_pos hu]
    exact h
  · rw [if_neg hu]
    exact processOneType_dt_preserved pfx sfx m tm _ ColType.nominal
        (he (sc.2 + 1 + 1) (by omega))
      (processOneType_dt_preserved pfx sfx m tm _ ColType.ordinal
          (he (sc.2 + 1) (by omega))
        (processOneType_dt_preserved pfx sfx m tm _ ColType.scale (he sc.2 le_rfl) h))

theorem foldl_processEntry_preserved (pfx sfx : Str) (l : List (Str × ColType)) :
    ∀ (sc : EncState × Nat) (q e n0 : Str) (t0 : ColType),
      (∀ p ∈ l, p.1 ≠ q) →
      (∀ p ∈ l, ∀ ct : ColType, qualified p.1 ct ≠ q) →
      (∀ j, sc.2 ≤ j → genName pfx sfx j ≠ e) →
      lookupL sc.1.encodingMap q = some e →
      lookupL sc.1.decodingMap e = some n0 →
      lookupL sc.1.decodingTypes e = some t0 →
      lookupL (l.foldl (processEntry pfx sfx) sc).1.encodingMap q = some e ∧
        lookupL (l.foldl (processEntry pfx sfx) sc).1.decodingMap e = some n0 ∧
        lookupL (l.foldl (processEntry pfx sfx) sc).1.decodingTypes e = some t0 := by
  induction l with
  | nil =>
    intro sc q e n0 t0 _ _ _ h1 h2 h3
    exact ⟨h1, h2, h3⟩
  | cons ent rest ih =>
    intro sc q e n0 t0 hb hq he h1 h2 h3
    rw [List.foldl_cons]
    obtain ⟨m, tm⟩ := ent
    have hble := processEntry_counter_le pfx sfx sc (m, tm)
    exact ih (processEntry pfx sfx sc (m, tm)) q e n0 t0
      (fun p hp => hb p (List.mem_cons_of_mem _ hp))
      (fun p hp ct => hq p (List.mem_cons_of_mem _ hp) ct)
      (fun j hj => he j (le_trans hble hj))
      (processEntry_enc_preserved pfx sfx sc m tm
        (hb (m, tm) (List.mem_cons_self _ _))
        (fun ct => hq (m, tm) (List.mem_cons_self _ _) ct) h1)
      (processEntry_dec_preserved pfx sfx sc m tm he h2)
      (processEntry_dt_preserved pfx sfx sc m tm he h3)

theorem processEntry_known (pfx sfx n : Str) (t : ColType) (sc : EncState × Nat)
    (ht : t ∈ processKnownTypes) :
    ∃ i, i < 3 ∧ (processEntry pfx sfx sc (n, t)).2 = sc.2 + 3 ∧
      lookupL (processEntry pfx sfx sc (n, t)).1.encodingMap (qualified n t) =
        some (genName pfx sfx (sc.2 + i)) ∧
      lookupL (processEntry pfx sfx sc (n, t)).1.decodingMap (genName pfx sfx (sc.2 + i)) =
        some n ∧
      lookupL (processEntry pfx sfx sc (n, t)).1.decodingTypes (genName pfx sfx (sc.2 + i)) =
        some t := by
  have hQso : qualified n ColType.scale ≠ qualified n ColType.ordinal :=
    fun hh => absurd (qualified_inj hh).2 (by decide)
  have hQsn : qualified n ColType.scale ≠ qualified n ColType.nominal :=
    fun hh => absurd (qualified_inj hh).2 (by decide)
  have hQon : qualified n ColType.ordinal ≠ qualified n ColType.nominal :=
    fun hh => absurd (qualified_inj hh).2 (by decide)
  have hg01 : genName pfx sfx sc.2 ≠ genName pfx sfx (sc.2 + 1) :=
    fun hh => by have := genName_inj hh; omega
  have hg02 : genName pfx sfx sc.2 ≠ genName pfx sfx (sc.2 + 2) :=
    fun hh => by have := genName_inj hh; omega
  have hg12 : genName pfx sfx (sc.2 + 1) ≠ genName pfx sfx (sc.2 + 2) :=
    fun hh => by have := genName_inj hh; omega
  fin_cases ht
  · refine ⟨0, by omega, ?_, ?_, ?_, ?_⟩
    · show sc.2 + 1 + 1 + 1 = sc.2 + 3
      omega
    · simp only [Nat.add_zero]
      show lookupL (insertA (insertA (insertA (insertA sc.1.encodingMap
          (qualified n ColType.scale) (genName pfx sfx sc.2)) n (genName pfx sfx sc.2))
          (qualified n ColType.ordinal) (genName pfx sfx (sc.2 + 1)))
          (qualified n ColType.nominal) (genName pfx sfx (sc.2 + 2)))
          (qualified n ColType.scale) = some (genName pfx sfx sc.2)
      rw [lookupL_insertA_ne hQsn, lookupL_insertA_ne hQso,
        lookupL_insertA_ne (qualified_ne_self n ColType.scale), lookupL_insertA_self]
    · simp only [Nat.add_zero]
      show lookupL (insertA (insertA (insertA sc.1.decodingMap
          (genName pfx sfx sc.2) n) (genName pfx sfx (sc.2 + 1)) n)
          (genName pfx sfx (sc.2 + 2)) n) (genName pfx sfx sc.2) = some n
      rw [lookupL_insertA_ne hg02, lookupL_insertA_ne hg01, lookupL_insertA_self]
    · simp only [Nat.add_zero]
      show lookupL (insertA (insertA (insertA sc.1.decodingTypes
          (genName pfx sfx sc.2) ColType.scale) (genName pfx sfx (sc.2 + 1)) ColType.ordinal)
          (genName pfx sfx (sc.2 + 2)) ColType.nominal) (genName pfx sfx sc.2) =
          some ColType.scale
      rw [lookupL_insertA_ne hg02, lookupL_insertA_ne hg01, lookupL_insertA_self]
  · refine ⟨1, by omega, ?_, ?_, ?_, ?_⟩
    · show sc.2 + 1 + 1 + 1 = sc.2 + 3
      omega
    · show lookupL (insertA (insertA (insertA (insertA sc.1.encodingMap
          (qualified n ColType.scale) (genName pfx sfx sc.2))
          (qualified n ColType.ordinal) (genName pfx sfx (sc.2 + 1))) n
          (genName pfx sfx (sc.2 + 1)))
          (qualified n ColType.nominal) (genName pfx sfx (sc.2 + 2)))
          (qualified n ColType.ordinal) = some (genName pfx sfx (sc.2 + 1))
      rw [lookupL_insertA_ne hQon, lookupL_insertA_ne (qualified_ne_self n ColType.ordinal),
        lookupL_insertA_self]
    · show lookupL (insertA (insertA (insertA sc.1.decodingMap
          (genName pfx sfx sc.2) n) (genName pfx sfx (sc.2 + 1)) n)
          (genName pfx sfx (sc.2 + 2)) n) (genName pfx sfx (sc.2 + 1)) = some n
      rw [lookupL_insertA_ne hg12, lookupL_insertA_self]
    · show lookupL (insertA (insertA (insertA sc.1.decodingTypes
          (genName pfx sfx sc.2) ColType.scale) (genName pfx sfx (sc.2 + 1)) ColType.ordinal)
          (genName pfx sfx (sc.2 + 2)) ColType.nominal) (genName pfx sfx (sc.2 + 1)) =
          some ColType.ordinal
      rw [lookupL_insertA_ne hg12, lookupL_insertA_self]
  · refine ⟨2, by omega, ?_, ?_, ?_, ?_⟩
    · show sc.2 + 1 + 1 + 1 = sc.2 + 3
      omega
    · show lookupL (insertA (insertA (insertA (insertA sc.1.encodingMap
          (qualified n ColType.scale) (genName pfx sfx sc.2))
          (qualified n ColType.ordinal) (genName pfx sfx (sc.2 + 1)))
          (qualified n ColType.nominal) (genName pfx sfx (sc.2 + 2))) n
          (genName pfx sfx (sc.2 + 2)))
          (qualified n ColType.nominal) = some (genName pfx sfx (sc.2 + 2))
      rw [lookupL_insertA_ne (qualified_ne_self n ColType.nominal), lookupL_insertA_self]
    · show lookupL (insertA (insertA (insertA sc.1.decodingMap
          (genName pfx sfx sc.2) n) (genName pfx sfx (sc.2 + 1)) n)
          (genName pfx sfx (sc.2 + 2)) n) (genName pfx sfx (sc.2 + 2)) = some n
      rw [lookupL_insertA_self]
    · show lookupL (insertA (insertA (insertA sc.1.decodingTypes
          (genName pfx sfx sc.2) ColType.scale) (genName pfx sfx (sc.2 + 1)) ColType.ordinal)
          (genName pfx sfx (sc.2 + 2)) ColType.nominal) (genName pfx sfx (sc.2 + 2)) =
          some ColType.nominal
      rw [lookupL_insertA_self]

theorem setCurrentNames_enc (pfx sfx : Str) (s : EncState) (nm : List (Str × ColType)) :
    (setCurrentNames pfx sfx s nm).encodingMap =
      (nm.foldl (processEntry pfx sfx)
        ({ s with encodingMap := [], decodingMap := [], encodedNames := [],
                  dataSetTypes := nm }, 0)).1.encodingMap := rfl

theorem setCurrentNames_dec (pfx sfx : Str) (s : EncState) (nm : List (Str × ColType)) :
    (setCurrentNames pfx sfx s nm).decodingMap =
      (nm.foldl (processEntry pfx sfx)
        ({ s with encodingMap := [], decodingMap := [], encodedNames := [],
                  dataSetTypes := nm }, 0)).1.decodingMap := rfl

theorem setCurrentNames_dt (pfx sfx : Str) (s : EncState) (nm : List (Str × ColType)) :
    (setCurrentNames pfx sfx s nm).decodingTypes =
      (nm.foldl (processEntry pfx sfx)
        ({ s with encodingMap := [], decodingMap := [], encodedNames := [],
                  dataSetTypes := nm }, 0)).1.decodingTypes := rfl


/-- C1 counterexample: with the names `+a` and `a+b` registered (longest
first), encoding the text `+a+b` by the source's encodeRScript yields
`+JASPColumn_1_For_Replacement` (the longer name is processed first over the
whole text), while the cursor-resuming replaceAll algorithm restricted to
free, unquoted occurrences replaces the leftmost free occurrence `+a` first
and yields `JASPColumn_0_For_Replacement+b`; the two outputs differ, refuting
the claimed equality of the two algorithms. -/
theorem C1_counterexample :
    (let s := setCurrentNames pfxJ sfxJ emptyState
        [("+a".toList, ColType.unknown), ("a+b".toList, ColType.unknown)]
    let names := regOriginalNames ⟨s, []⟩
    (encodeRScript "+a+b".toList s.encodingMap names []).map Prod.fst =
        some "+JASPColumn_1_For_Replacement".toList ∧
      resumeReplaceFree s.encodingMap names [] 10 "+a+b".toList 0 =
        some "JASPColumn_0_For_Replacement+b".toList ∧
      (encodeRScript "+a+b".toList s.encodingMap names []).map Prod.fst ≠
        resumeReplaceFree s.encodingMap names [] 10 "+a+b".toList 0) := by
  decide

/-- C1 (amended): encodeInScriptText does not use the cursor-resuming
replaceAll algorithm; it iterates over the registered names in list order
(longest-first for the sorted originalNames) and, for each name, computes
that name's unquoted occurrence positions once and replaces its free
occurrences right-to-left in place.  Its output equals that per-name
right-to-left algorithm for every text, map, name list and mandatory prefix. -/
theorem C1_per_name_algorithm (text : Str) (map : List (Str × Str)) (names : List Str)
    (mpfx : Str) :
    encodeRScript text map names mpfx = encodeRScriptPerName text map names mpfx := by
  unfold encodeRScript encodeRScriptPerName
  generalize (some (text, ([] : List Str))) = init
  induction names generalizing init with
  | nil => rfl
  | cons a l ih =>
    simp only [List.foldl_cons]
    rw [processName_eq_spec]
    exact ih _

/-- C2: setCurrentNames does not clear all previously stored per-encoder
state.  After registering ab with type scale and then c with type unknown on
the same encoder, the stale name ab is still in originalNames with no
encodingMap key, and decodingTypes still maps JASPColumn_0_For_Replacement
(which now decodes to c) to scale. -/
theorem C2_stale_state :
    (let s1 := setCurrentNames pfxJ sfxJ emptyState [("ab".toList, ColType.scale)]
    let s2 := setCurrentNames pfxJ sfxJ s1 [("c".toList, ColType.unknown)]
    "ab".toList ∈ s2.originalNames ∧
      lookupL s2.encodingMap "ab".toList = none ∧
      lookupL s2.decodingTypes (genName pfxJ sfxJ 0) = some ColType.scale ∧
      lookupL s2.decodingMap (genName pfxJ sfxJ 0) = some "c".toList) := by
  decide

/-- C3: the claimed invariant fails after two setNames calls: the stale name
a remains in originalNames while encodingMap has no key a (because
setCurrentNames clears the maps but never clears originalNames). -/
theorem C3_invariant_violation :
    (let s2 := setCurrentNames pfxJ sfxJ
        (setCurrentNames pfxJ sfxJ emptyState [("a".toList, ColType.unknown)])
        [("bc".toList, ColType.unknown)]
    "a".toList ∈ s2.originalNames ∧ lookupL s2.encodingMap "a".toList = none) := by
  decide

/-- C4 counterexample: with colname registered, encoding the text `colname(`
leaves it unchanged and records no found name: an occurrence followed by an
opening parenthesis (even across whitespace) is rejected by testEndFree,
contrary to the claim that it still counts as free and is replaced. -/
theorem C4_counterexample :
    (let s := setCurrentNames pfxJ sfxJ emptyState [("colname".toList, ColType.unknown)]
    encodeRScript "colname(".toList s.encodingMap (regOriginalNames ⟨s, []⟩) [] =
        some ("colname(".toList, []) ∧
      testEndFree "colname(".toList 7 = false ∧
      testEndFree "colname (x)".toList 7 = false ∧
      testEndFree "colname + x".toList 7 = true) := by
  decide

/-- C4 (amended): the end of a match is free exactly when it is at the end of
the text, or the next character is outside the identifier class and the first
non-space, non-tab character from the match end onward is not an opening
parenthesis — i.e. a match followed (possibly across spaces and tabs) by `(`
is rejected, and any other non-identifier continuation is accepted. -/
theorem C4_end_free_characterization (text : Str) (pos : Nat) :
    testEndFree text pos = true ↔
      pos = text.length ∨
        (pos < text.length ∧ (∃ c, charAt text pos = some c ∧ nonNameChar c = true) ∧
          firstNonWs (text.drop pos) ≠ some '(') := by
  unfold testEndFree
  by_cases hp : pos = text.length
  · simp [hp]
  · rw [if_neg hp]
    cases hc : charAt text pos with
    | none =>
      have hlen : text.length ≤ pos := by
        unfold charAt at hc
        have hdrop : text.drop pos = [] := by
          cases hd : text.drop pos with
          | nil => rfl
          | cons a t => rw [hd] at hc; simp at hc
        have := congrArg List.length hdrop
        simp at this
        omega
      simp only [hc]
      constructor
      · intro h
        simp at h
      · intro h
        rcases h with h | h
        · exact absurd h hp
        · omega
    | some c =>
      have hlt : pos < text.length := by
        unfold charAt at hc
        have hne : text.drop pos ≠ [] := by
          intro hd
          rw [hd] at hc
          simp at hc
        have hnle : ¬(text.length ≤ pos) := by
          intro hle
          exact hne (List.drop_eq_nil_of_le hle)
        omega
      simp only [hc]
      rw [Bool.and_eq_true, endScan_iff]
      constructor
      · rintro ⟨hn, hs⟩
        exact Or.inr ⟨hlt, ⟨c, rfl, hn⟩, hs⟩
      · rintro (h | ⟨_, ⟨c2, hc2, hn2⟩, hs⟩)
        · exact absurd h hp
        · cases hc2
          exact ⟨hn2, hs⟩

/-- C5 counterexample: for the one-character name consisting of a double
quote and the text `"a"b`, the source scanner returns the offsets 0 and 2 —
when the match at offset 0 is recorded, the quote there is not fed to the
delimiter toggle, so the scan never enters a quoted run and the closing quote
at offset 2 is also reported — while the spec's independent delimiter toggle
marks offsets 1 and 2 as inside the run and returns only offset 0. -/
theorem C5_counterexample :
    getPositionsColumnNameMatches "\"a\"b".toList "\"".toList = [0, 2] ∧
      specOccurrences "\"a\"b".toList "\"".toList = [0] ∧
      getPositionsColumnNameMatches "\"a\"b".toList "\"".toList ≠
        specOccurrences "\"a\"b".toList "\"".toList := by
  decide

/-- C5 (amended): for every text and every non-empty name that does not begin
with a single- or double-quote character, the source scanner agrees with the
spec's description: it returns exactly the literal-substring start offsets
outside single- or double-quoted runs, the runs tracked by the simple
delimiter toggle with no escape handling. -/
theorem C5_scanner_no_quote_initial (text name : Str) (h1 : name ≠ [])
    (h2 : name.head? ≠ some '"') (h3 : name.head? ≠ some '\'') :
    getPositionsColumnNameMatches text name = specOccurrences text name := by
  unfold getPositionsColumnNameMatches specOccurrences
  exact getPosAux_eq_spec name h1 h2 h3 text 0 (false, '?')

/-- C5 witness: the amended scanner equality evaluated at the name `ab` and a
text containing one quoted and one free occurrence. -/
theorem C5_scanner_no_quote_initial_witness :
    ("ab".toList ≠ ([] : Str) ∧ "ab".toList.head? ≠ some '"' ∧
        "ab".toList.head? ≠ some '\'') ∧
      getPositionsColumnNameMatches "x + 'ab' + ab".toList "ab".toList =
        specOccurrences "x + 'ab' + ab".toList "ab".toList :=
  ⟨⟨by decide, by decide, by decide⟩,
    C5_scanner_no_quote_initial "x + 'ab' + ab".toList "ab".toList
      (by decide) (by decide) (by decide)⟩

/-- C6 counterexample: with only score registered, running the prefix-set
script encoder on `data.score + score` with allowed prefix `data.` puts
score into the empty-prefix bucket as well (the empty prefix is always tried
first and replaces the bare occurrence), and the output is not the claimed
`data.<encoded> + score`. -/
theorem C6_counterexample :
    (let s := setCurrentNames pfxJ sfxJ emptyState [("score".toList, ColType.unknown)]
    let r := encodeRScriptWithPfxs "data.score + score".toList s.encodingMap
        (regOriginalNames ⟨s, []⟩) ["data.".toList]
    (r.map fun p => lookupL p.2 ([] : Str)) = some (some ["score".toList]) ∧
      r.map Prod.fst ≠ some "data.JASPColumn_0_For_Replacement + score".toList) := by
  decide

/-- C6 (amended): with only score registered, encoding `data.score + score`
through the prefix-set overload with allowed prefix `data.` replaces BOTH
occurrences — the empty-prefix pass (always run first) replaces the bare
occurrence and the `data.` pass replaces the prefixed one — yielding
`data.<encoded> + <encoded>` with score recorded in both the empty-prefix
bucket and the `data.` bucket of the returned per-prefix found-name map. -/
theorem C6_both_occurrences_encoded :
    (let s := setCurrentNames pfxJ sfxJ emptyState [("score".toList, ColType.unknown)]
    encodeRScriptWithPfxs "data.score + score".toList s.encodingMap
        (regOriginalNames ⟨s, []⟩) ["data.".toList] =
      some ("data.JASPColumn_0_For_Replacement + JASPColumn_0_For_Replacement".toList,
        [([], ["score".toList]), ("data.".toList, ["score".toList])])) := by
  decide

/-- C7: encode and decode return the empty string unchanged on empty input;
on non-empty input, encode fails (with the NotAColumnName message) exactly
when the input is absent from the merged encode map and returns the mapped
identifier exactly when present, and decode behaves symmetrically over the
merged decode map. -/
theorem C7_encode_decode_contract (r : Registry) (s : Str) (hs : s ≠ []) :
    encode r [] = .ok [] ∧ decode r [] = .ok [] ∧
    (encode r s = .error (encodeErrMsg s) ↔ lookupL (regEncodingMap r) s = none) ∧
    (∀ v, encode r s = .ok v ↔ lookupL (regEncodingMap r) s = some v) ∧
    (decode r s = .error (decodeErrMsg s) ↔ lookupL (regDecodingMap r) s = none) ∧
    (∀ v, decode r s = .ok v ↔ lookupL (regDecodingMap r) s = some v) := by
  refine ⟨rfl, rfl, ?_, ?_, ?_, ?_⟩
  · unfold encode
    rw [if_neg hs]
    cases h : lookupL (regEncodingMap r) s <;> simp
  · intro v
    unfold encode
    rw [if_neg hs]
    cases h : lookupL (regEncodingMap r) s <;> simp
  · unfold decode
    rw [if_neg hs]
    cases h : lookupL (regDecodingMap r) s <;> simp
  · intro v
    unfold decode
    rw [if_neg hs]
    cases h : lookupL (regDecodingMap r) s <;> simp

/-- C7 witness: the contract applied to a concrete one-entry registry and the
non-empty input a. -/
theorem C7_encode_decode_contract_witness :
    ("a".toList ≠ ([] : Str)) ∧ encode sampleRegistry "a".toList = Except.ok "X".toList :=
  ⟨by decide,
    ((C7_encode_decode_contract sampleRegistry "a".toList (by decide)).2.2.2.1
        "X".toList).mpr (by decide)⟩

/-- C8: when the primary encoder maps a to X (and has no entry for b) and an
auxiliary encoder maps a to Z and b to Y, the merged encode map gives
encode(a) = X and encode(b) = Y: the primary's entries take precedence and the
auxiliary only fills in absent keys. -/
theorem C8_primary_precedence (p aux : EncState)
    (h1 : lookupL p.encodingMap "a".toList = some "X".toList)
    (h2 : lookupL p.encodingMap "b".toList = none)
    (h3 : lookupL aux.encodingMap "a".toList = some "Z".toList)
    (h4 : lookupL aux.encodingMap "b".toList = some "Y".toList) :
    encode ⟨p, [aux]⟩ "a".toList = .ok "X".toList ∧
      encode ⟨p, [aux]⟩ "b".toList = .ok "Y".toList := by
  have hm : regEncodingMap ⟨p, [aux]⟩ = mergeInto p.encodingMap aux.encodingMap := rfl
  constructor
  · unfold encode
    rw [if_neg (by decide), hm, mergeInto_lookup, h1]
  · unfold encode
    rw [if_neg (by decide), hm, mergeInto_lookup, h2, h4]

/-- C8 witness: the aggregation scenario evaluated at concrete primary and
auxiliary encoder states. -/
theorem C8_primary_precedence_witness :
    (lookupL samplePrimary.encodingMap "a".toList = some "X".toList ∧
        lookupL samplePrimary.encodingMap "b".toList = none ∧
        lookupL sampleAux.encodingMap "a".toList = some "Z".toList ∧
        lookupL sampleAux.encodingMap "b".toList = some "Y".toList) ∧
      (encode ⟨samplePrimary, [sampleAux]⟩ "a".toList = .ok "X".toList ∧
        encode ⟨samplePrimary, [sampleAux]⟩ "b".toList = .ok "Y".toList) :=
  ⟨⟨by decide, by decide, by decide, by decide⟩,
    C8_primary_precedence samplePrimary sampleAux (by decide) (by decide) (by decide)
      (by decide)⟩

/-- C9 counterexample: registering both x (type scale) and x.scale (type
scale) makes the bare-name binding of the entry x.scale overwrite the
qualified entry `x.scale` written for x, so decode(encode("x" + "." +
"scale")) returns x.scale, not x — the claimed round-trip fails on colliding
names. -/
theorem C9_counterexample :
    (let r : Registry := ⟨setCurrentNames pfxJ sfxJ emptyState
        [("x".toList, ColType.scale), ("x.scale".toList, ColType.scale)], []⟩
    (encode r (qualified "x".toList ColType.scale)).bind (decode r) =
        Except.ok "x.scale".toList ∧
      "x.scale".toList ≠ "x".toList) :=
  ⟨rfl, by decide⟩

/-- C9 (amended): for a fresh encoder whose names are registered by one
setNames call, for every entry (n, t) with t one of scale/ordinal/nominal,
provided the type-qualified name n.t is not itself a registered name (and the
registered names are distinct), there is an identifier e with
encode(n.t) = e, decode(e) = n and typeOf(e) = t. -/
theorem C9_roundtrip_amended (pfx sfx : Str) (nm : List (Str × ColType)) (n : Str)
    (t : ColType)
    (hmem : (n, t) ∈ nm) (ht : t ∈ processKnownTypes)
    (hnodup : (nm.map Prod.fst).Nodup)
    (hqn : qualified n t ∉ nm.map Prod.fst) :
    ∃ e, encode ⟨setCurrentNames pfx sfx emptyState nm, []⟩ (qualified n t) = .ok e ∧
      decode ⟨setCurrentNames pfx sfx emptyState nm, []⟩ e = .ok n ∧
      columnTypeFromEncoded ⟨setCurrentNames pfx sfx emptyState nm, []⟩ e = t := by
  obtain ⟨l₁, l₂, rfl⟩ := List.append_of_mem hmem
  have hmaps : ∃ e, e ≠ [] ∧
      lookupL (setCurrentNames pfx sfx emptyState (l₁ ++ (n, t) :: l₂)).encodingMap
        (qualified n t) = some e ∧
      lookupL (setCurrentNames pfx sfx emptyState (l₁ ++ (n, t) :: l₂)).decodingMap e =
        some n ∧
      lookupL (setCurrentNames pfx sfx emptyState (l₁ ++ (n, t) :: l₂)).decodingTypes e =
        some t := by
    rw [setCurrentNames_enc, setCurrentNames_dec, setCurrentNames_dt]
    rw [List.foldl_append, List.foldl_cons]
    set scA := l₁.foldl (processEntry pfx sfx)
      ({ emptyState with encodingMap := [], decodingMap := [], encodedNames := [],
                         dataSetTypes := l₁ ++ (n, t) :: l₂ }, 0) with hscA
    obtain ⟨i, hi3, hcnt, henc, hdec, hdt⟩ := processEntry_known pfx sfx n t scA ht
    rw [List.map_append, List.map_cons] at hnodup hqn
    have hnl2 : n ∉ l₂.map Prod.fst := by
      have h5 := List.Nodup.of_append_right hnodup
      exact (List.nodup_cons.mp h5).1
    have hcondb : ∀ p ∈ l₂, p.1 ≠ qualified n t := by
      intro p hp hpe
      apply hqn
      apply List.mem_append_right
      apply List.mem_cons_of_mem
      rw [← hpe]
      exact List.mem_map_of_mem Prod.fst hp
    have hcondq : ∀ p ∈ l₂, ∀ ct : ColType, qualified p.1 ct ≠ qualified n t := by
      intro p hp ct hpe
      obtain ⟨hfst, hty⟩ := qualified_inj hpe
      apply hnl2
      rw [← hfst]
      exact List.mem_map_of_mem Prod.fst hp
    have hconde : ∀ j, (processEntry pfx sfx scA (n, t)).2 ≤ j →
        genName pfx sfx j ≠ genName pfx sfx (scA.2 + i) := by
      intro j hj hje
      have hij := genName_inj hje
      rw [hcnt] at hj
      omega
    have hfold := foldl_processEntry_preserved pfx sfx l₂ (processEntry pfx sfx scA (n, t))
      (qualified n t) (genName pfx sfx (scA.2 + i)) n t hcondb hcondq hconde henc hdec hdt
    exact ⟨genName pfx sfx (scA.2 + i), genName_ne_nil pfx sfx _,
      hfold.1, hfold.2.1, hfold.2.2⟩
  obtain ⟨e, hene, he1, he2, he3⟩ := hmaps
  refine ⟨e, ?_, ?_, ?_⟩
  · unfold encode
    rw [if_neg (qualified_ne_nil n t)]
    have hreg : regEncodingMap ⟨setCurrentNames pfx sfx emptyState (l₁ ++ (n, t) :: l₂), []⟩ =
        (setCurrentNames pfx sfx emptyState (l₁ ++ (n, t) :: l₂)).encodingMap := rfl
    rw [hreg, he1]
  · unfold decode
    rw [if_neg hene]
    have hreg : regDecodingMap ⟨setCurrentNames pfx sfx emptyState (l₁ ++ (n, t) :: l₂), []⟩ =
        (setCurrentNames pfx sfx emptyState (l₁ ++ (n, t) :: l₂)).decodingMap := rfl
    rw [hreg, he2]
  · unfold columnTypeFromEncoded
    rw [if_neg hene]
    have hreg : regDecodingTypes ⟨setCurrentNames pfx sfx emptyState (l₁ ++ (n, t) :: l₂), []⟩ =
        (setCurrentNames pfx sfx emptyState (l₁ ++ (n, t) :: l₂)).decodingTypes := rfl
    rw [hreg, he3]

/-- C9 witness: the amended round-trip applied to the single registration of
score with type scale. -/
theorem C9_roundtrip_amended_witness :
    ((("score".toList, ColType.scale) ∈ [("score".toList, ColType.scale)]) ∧
        ColType.scale ∈ processKnownTypes ∧
        (([("score".toList, ColType.scale)]).map Prod.fst).Nodup ∧
        qualified "score".toList ColType.scale ∉
          ([("score".toList, ColType.scale)]).map Prod.fst) ∧
      ∃ e,
        encode ⟨setCurrentNames pfxJ sfxJ emptyState [("score".toList, ColType.scale)], []⟩
            (qualified "score".toList ColType.scale) = .ok e ∧
          decode ⟨setCurrentNames pfxJ sfxJ emptyState [("score".toList, ColType.scale)], []⟩
            e = .ok "score".toList ∧
          columnTypeFromEncoded
            ⟨setCurrentNames pfxJ sfxJ emptyState [("score".toList, ColType.scale)], []⟩ e =
            ColType.scale :=
  ⟨⟨by decide, by decide, by decide, by decide⟩,
    C9_roundtrip_amended pfxJ sfxJ [("score".toList, ColType.scale)] "score".toList
      ColType.scale (by decide) (by decide) (by decide) (by decide)⟩

/-- C10: for every text, replacement map and name list in which every listed
name is non-empty and present as a key of the map, the cursor-resuming
replaceAll loop terminates with a result (fuel text.length + 1 always
suffices, since each iteration strictly shrinks the text length minus the
cursor). -/
theorem C10_replaceAll_terminates (map : List (Str × Str)) (names : List Str) (text : Str)
    (h : ∀ n ∈ names, n ≠ [] ∧ (lookupL map n).isSome) :
    ∃ res, replaceAll map names text = RepRes.ok res := by
  unfold replaceAll
  exact replaceAllFuel_ok map names h (text.length + 1) text 0 (by omega)

/-- C10 witness: termination on the text abc with the single name b mapped
to X. -/
theorem C10_replaceAll_terminates_witness :
    (∀ n ∈ ["b".toList], n ≠ ([] : Str) ∧ (lookupL [("b".toList, "X".toList)] n).isSome) ∧
      ∃ res, replaceAll [("b".toList, "X".toList)] ["b".toList] "abc".toList =
        RepRes.ok res :=
  ⟨by decide,
    C10_replaceAll_terminates [("b".toList, "X".toList)] ["b".toList] "abc".toList
      (by decide)⟩

end ColumnEncoder
